import Mathlib

/-!
Verification development for the editing engine of `sh7dm/helix`
(`src/helix-view/src/commands.rs`).

The file shallowly embeds the command layer of the editor.  Text is a
`List Char`, positions are `Nat` character offsets.  The command layer in
`commands.rs` is translated function by function.  The external crate
`helix_core` (ChangeSet/Transaction engine, Selection model, History, rope
queries, grapheme boundaries, registers) is not part of the repository
slice under `src/`; those collaborators are modelled from the spec, each
with a doc comment starting `Modelled from the spec:`.
-/

set_option maxHeartbeats 1000000

namespace Helix

/-- Modelled from the spec: a ChangeSet operation over the prior text
snapshot, one of `Retain(len)`, `Insert(text)`, `Delete(len)`
(spec section 3, missing `helix_core::ChangeSet`). -/
inductive Op where
  | retain (n : Nat)
  | insert (s : List Char)
  | delete (n : Nat)
  deriving DecidableEq, Repr

/-- Modelled from the spec: applying a ChangeSet left to right, consuming
the old snapshot and producing the new one.  The application fails
(returns `none`) exactly when the `Retain + Delete` total does not match
the input snapshot length, which is the ChangeSet well-formedness
invariant of spec section 3. -/
def applyOps : List Op → List Char → Option (List Char)
  | [], [] => some []
  | [], _ :: _ => none
  | Op.retain n :: rest, t =>
      if n ≤ t.length then (applyOps rest (t.drop n)).map (fun u => t.take n ++ u) else none
  | Op.insert s :: rest, t => (applyOps rest t).map (fun u => s ++ u)
  | Op.delete n :: rest, t =>
      if n ≤ t.length then applyOps rest (t.drop n) else none

/-- Modelled from the spec: `ChangeSet::invert(original_text)` swaps
`Insert` and `Delete`, reading the literal deleted spans from the
original text (spec section 4.2, missing `helix_core::ChangeSet`). -/
def invertOps : List Op → List Char → List Op
  | [], _ => []
  | Op.retain n :: rest, t => Op.retain n :: invertOps rest (t.drop n)
  | Op.insert s :: rest, t => Op.delete s.length :: invertOps rest t
  | Op.delete n :: rest, t => Op.insert (t.take n) :: invertOps rest (t.drop n)

/-- Modelled from the spec: `ChangeSet::new(text)` is the identity
changeset, a single `Retain(len)` (spec section 4.2). -/
def changeSetNew (t : List Char) : List Op := [Op.retain t.length]

/-- Modelled from the spec: a changeset is "empty" when it is the
identity (no insertions or deletions); `append_changes_to_history`
skips committing such a pending changeset. -/
def csIsEmpty : List Op → Bool
  | [] => true
  | [Op.retain _] => true
  | _ => false

/-- Modelled from the spec: width consumed from / produced into a text by
one operation, used only to bound the fuel of `composeGo`. -/
def opLen : Op → Nat
  | Op.retain n => n
  | Op.insert s => s.length
  | Op.delete n => n

/-- Modelled from the spec: the worker for ChangeSet composition.  The two
operation streams are consumed in lock step, splitting operations where
they overlap.  The fuel argument strictly bounds the number of steps
(each step removes at least one operation from one side). -/
def composeGo : Nat → List Op → List Op → List Op
  | 0, a, b => a ++ b
  | _ + 1, [], b => b
  | _ + 1, a, [] => a
  | fuel + 1, Op.delete n :: resta, b => Op.delete n :: composeGo fuel resta b
  | fuel + 1, a, Op.insert s :: restb => Op.insert s :: composeGo fuel a restb
  | fuel + 1, Op.retain n :: resta, Op.retain m :: restb =>
      if n = m then Op.retain n :: composeGo fuel resta restb
      else if n < m then Op.retain n :: composeGo fuel resta (Op.retain (m - n) :: restb)
      else Op.retain m :: composeGo fuel (Op.retain (n - m) :: resta) restb
  | fuel + 1, Op.retain n :: resta, Op.delete m :: restb =>
      if n = m then Op.delete m :: composeGo fuel resta restb
      else if n < m then Op.delete n :: composeGo fuel resta (Op.delete (m - n) :: restb)
      else Op.delete m :: composeGo fuel (Op.retain (n - m) :: resta) restb
  | fuel + 1, Op.insert s :: resta, Op.retain m :: restb =>
      if s.length = m then Op.insert s :: composeGo fuel resta restb
      else if s.length < m then Op.insert s :: composeGo fuel resta (Op.retain (m - s.length) :: restb)
      else Op.insert (s.take m) :: composeGo fuel (Op.insert (s.drop m) :: resta) restb
  | fuel + 1, Op.insert s :: resta, Op.delete m :: restb =>
      if s.length = m then composeGo fuel resta restb
      else if s.length < m then composeGo fuel resta (Op.delete (m - s.length) :: restb)
      else composeGo fuel (Op.insert (s.drop m) :: resta) restb

/-- Modelled from the spec: `compose(cs1, cs2)` is a single changeset
equivalent to applying `cs1` then `cs2`; the identity changeset is a
neutral element on both sides (spec section 4.2). -/
def compose (a b : List Op) : List Op :=
  if csIsEmpty a then b
  else if csIsEmpty b then a
  else composeGo (a.length + b.length + (a.map opLen).sum + (b.map opLen).sum + 1) a b

/-- Inverting a changeset against the text it was applied to yields a
changeset mapping the new text back to the old one: the required
inversion law of spec section 4.2. -/
theorem applyOps_invert (ops : List Op) :
    ∀ t t' : List Char, applyOps ops t = some t' →
      applyOps (invertOps ops t) t' = some t := by
  induction ops with
  | nil =>
    intro t t' h
    cases t with
    | nil =>
      simp only [applyOps, Option.some.injEq] at h
      subst h
      simp [invertOps, applyOps]
    | cons c cs => simp [applyOps] at h
  | cons op rest ih =>
    intro t t' h
    cases op with
    | retain n =>
      simp only [applyOps] at h
      by_cases hn : n ≤ t.length
      · rw [if_pos hn] at h
        obtain ⟨u, hu, huv⟩ := Option.map_eq_some'.mp h
        subst huv
        have hlen : (t.take n).length = n := by
          simp [List.length_take, Nat.min_eq_left hn]
        simp only [invertOps, applyOps]
        rw [if_pos (by simp [List.length_append, hlen] :
          n ≤ (t.take n ++ u).length)]
        rw [List.take_left' hlen, List.drop_left' hlen]
        rw [ih _ _ hu]
        simp [List.take_append_drop]
      · rw [if_neg hn] at h
        exact absurd h (by simp)
    | insert s =>
      simp only [applyOps] at h
      obtain ⟨u, hu, huv⟩ := Option.map_eq_some'.mp h
      subst huv
      simp only [invertOps, applyOps]
      rw [if_pos (by simp : s.length ≤ (s ++ u).length)]
      rw [List.drop_left' rfl]
      exact ih _ _ hu
    | delete n =>
      simp only [applyOps] at h
      by_cases hn : n ≤ t.length
      · rw [if_pos hn] at h
        simp only [invertOps, applyOps]
        rw [ih _ _ h]
        simp [List.take_append_drop]
      · rw [if_neg hn] at h
        exact absurd h (by simp)

/-- Modelled from the spec: the rope query `char_to_line` of the external
text container (spec section 1, non-goals): the line index containing a
character offset, with lines separated by the newline character. -/
def char_to_line (t : List Char) (pos : Nat) : Nat := (t.take pos).count '\n'

/-- Modelled from the spec: the rope query `line_to_char` of the external
text container: the character offset of the start of a line.  A line
index at or past the last line maps to the text length. -/
def line_to_char : List Char → Nat → Nat
  | _, 0 => 0
  | [], _ + 1 => 0
  | c :: rest, n + 1 =>
      1 + (if c = '\n' then line_to_char rest n else line_to_char rest (n + 1))

/-- Modelled from the spec: the rope query `len_lines`: number of lines,
counting the line after a final newline (ropey semantics). -/
def len_lines (t : List Char) : Nat := t.count '\n' + 1

/-- Modelled from the spec: the rope query `line(i)`: the slice of the
text between the start of line `i` and the start of line `i + 1`. -/
def lineAt (t : List Char) (i : Nat) : List Char :=
  (t.take (line_to_char t (i + 1))).drop (line_to_char t i)

theorem line_to_char_le (t : List Char) : ∀ n, line_to_char t n ≤ t.length := by
  induction t with
  | nil => intro n; cases n <;> simp [line_to_char]
  | cons c rest ih =>
    intro n
    cases n with
    | zero => simp [line_to_char]
    | succ m =>
      have h1 := ih m
      have h2 := ih (m + 1)
      simp only [line_to_char, List.length_cons]
      split <;> omega

theorem line_to_char_mono (t : List Char) :
    ∀ m n, m ≤ n → line_to_char t m ≤ line_to_char t n := by
  induction t with
  | nil => intro m n _; cases m <;> cases n <;> simp [line_to_char]
  | cons c rest ih =>
    intro m n hmn
    cases m with
    | zero => exact Nat.zero_le _
    | succ m' =>
      cases n with
      | zero => omega
      | succ n' =>
        have hmn' : m' ≤ n' := Nat.succ_le_succ_iff.mp hmn
        simp only [line_to_char]
        split
        · exact Nat.add_le_add_left (ih m' n' hmn') 1
        · exact Nat.add_le_add_left (ih (m' + 1) (n' + 1) (Nat.succ_le_succ hmn')) 1

theorem line_to_char_strict (t : List Char) :
    ∀ n, n < t.count '\n' → line_to_char t n < line_to_char t (n + 1) := by
  induction t with
  | nil => intro n h; simp at h
  | cons c rest ih =>
    intro n h
    cases n with
    | zero =>
      simp only [line_to_char]
      split <;> omega
    | succ m =>
      simp only [List.count_cons, beq_iff_eq] at h
      simp only [line_to_char]
      by_cases hc : c = '\n'
      · simp only [if_pos hc]
        have hm : m < rest.count '\n' := by
          rw [if_pos hc] at h
          omega
        exact Nat.add_lt_add_left (ih m hm) 1
      · simp only [if_neg hc]
        have hm : m + 1 < rest.count '\n' := by
          rw [if_neg hc] at h
          omega
        exact Nat.add_lt_add_left (ih (m + 1) hm) 1

theorem char_to_line_le_count (t : List Char) (pos : Nat) :
    char_to_line t pos ≤ t.count '\n' :=
  (List.take_sublist pos t).count_le '\n'

/-- Remove consecutive duplicates of a sorted list of line numbers,
mirroring `lines.dedup()` after `lines.sort_unstable()` in the source. -/
def dedupC : List Nat → List Nat
  | [] => []
  | a :: rest =>
    match rest with
    | [] => [a]
    | b :: _ => if a = b then dedupC rest else a :: dedupC rest

theorem dedupC_cons_cons (a b : Nat) (r : List Nat) :
    dedupC (a :: b :: r) = if a = b then dedupC (b :: r) else a :: dedupC (b :: r) := rfl

theorem mem_dedupC : ∀ (l : List Nat) (x : Nat), x ∈ dedupC l ↔ x ∈ l := by
  intro l
  induction l with
  | nil => intro x; simp [dedupC]
  | cons a rest ih =>
    intro x
    cases rest with
    | nil => simp [dedupC]
    | cons b r =>
      rw [dedupC_cons_cons]
      by_cases hab : a = b
      · rw [if_pos hab]
        subst hab
        rw [ih x]
        simp only [List.mem_cons]
        tauto
      · rw [if_neg hab]
        simp only [List.mem_cons]
        rw [ih x]
        simp [List.mem_cons]

theorem dedupC_head : ∀ (a : Nat) (l : List Nat), (dedupC (a :: l)).head? = some a := by
  intro a l
  induction l generalizing a with
  | nil => rfl
  | cons b rest ih =>
    rw [dedupC_cons_cons]
    by_cases hab : a = b
    · rw [if_pos hab, hab]
      exact ih b
    · rw [if_neg hab]
      rfl

theorem dedupC_chain (l : List Nat) (h : List.Chain' (· ≤ ·) l) :
    List.Chain' (· < ·) (dedupC l) := by
  induction l with
  | nil => simp [dedupC]
  | cons a rest ih =>
    cases rest with
    | nil => simp [dedupC]
    | cons b r =>
      have hab' : a ≤ b := (List.chain'_cons.mp h).1
      have htail : List.Chain' (· ≤ ·) (b :: r) := (List.chain'_cons.mp h).2
      rw [dedupC_cons_cons]
      by_cases hab : a = b
      · rw [if_pos hab]
        exact ih htail
      · rw [if_neg hab]
        rw [List.chain'_cons']
        refine ⟨?_, ih htail⟩
        intro y hy
        rw [dedupC_head b r] at hy
        cases hy
        omega

/-- Mirrors `lines.sort_unstable(); lines.dedup()` from the source
(`selection_lines` and `get_lines` in commands.rs). -/
def sortDedup (l : List Nat) : List Nat := dedupC (List.insertionSort (· ≤ ·) l)

theorem mem_sortDedup (l : List Nat) (x : Nat) : x ∈ sortDedup l ↔ x ∈ l :=
  (mem_dedupC _ x).trans (List.perm_insertionSort (· ≤ ·) l).mem_iff

theorem sortDedup_pairwise (l : List Nat) : (sortDedup l).Pairwise (· < ·) := by
  have hs : (List.insertionSort (· ≤ ·) l).Chain' (· ≤ ·) :=
    (List.sorted_insertionSort (· ≤ ·) l).chain'
  exact List.chain'_iff_pairwise.mp (dedupC_chain _ hs)

/-- Modelled from the spec: a selection range, `{anchor, head}`; `head`
is the moving end (where the cursor sits), `anchor` the fixed end
(spec section 3, missing `helix_core::Range`). -/
structure Range where
  anchor : Nat
  head : Nat
  deriving DecidableEq, Repr

/-- Modelled from the spec: `from()` returns `min(anchor, head)`. -/
def Range.fromPos (r : Range) : Nat := min r.anchor r.head

/-- Modelled from the spec: `to()` returns `max(anchor, head)`. -/
def Range.toPos (r : Range) : Nat := max r.anchor r.head

theorem Range.fromPos_le_toPos (r : Range) : r.fromPos ≤ r.toPos :=
  min_le_max

/-- Modelled from the spec: a selection, an ordered sequence of ranges
with one primary index (spec section 3, missing `helix_core::Selection`). -/
structure Selection where
  ranges : List Range
  primary : Nat
  deriving DecidableEq, Repr

/-- Insertion step of the stable sort of ranges by `from()` used when a
selection is normalized. -/
def insertRange (a : Range) : List Range → List Range
  | [] => [a]
  | x :: xs => if a.fromPos ≤ x.fromPos then a :: x :: xs else x :: insertRange a xs

/-- Sort ranges ascending by `from()` (selection normalization). -/
def sortRanges (l : List Range) : List Range := l.foldr insertRange []

/-- One step of merging overlapping `[from, to)` spans: fold the next
range into the accumulator (kept reversed), merging it with the previous
range when their spans overlap. -/
def mergeInto (acc : List Range) (b : Range) : List Range :=
  match acc with
  | [] => [b]
  | a :: rest =>
      if b.fromPos < a.toPos then ⟨min a.fromPos b.fromPos, max a.toPos b.toPos⟩ :: rest
      else b :: a :: rest

/-- Merge overlapping `[from, to)` spans of a sorted range list
(selection normalization, spec section 4.1). -/
def mergeRanges (l : List Range) : List Range := (l.foldl mergeInto []).reverse

/-- Modelled from the spec: `Selection::new(ranges, primary_index)`
normalizes order and merges overlaps before storing; if merging changes
the range count the primary index is remapped to the range containing
the original primary head (spec section 4.1).  An empty input list is a
caller contract violation (`InvalidSelection`); the model returns the
empty selection there. -/
def Selection.new (l : List Range) (primary : Nat) : Selection :=
  let merged := mergeRanges (sortRanges l)
  if merged.length = l.length then ⟨merged, primary⟩
  else
    let hd := ((l.get? primary).map Range.head).getD 0
    ⟨merged,
      min (merged.findIdx fun r => decide (r.fromPos ≤ hd) && decide (hd ≤ r.toPos))
        (merged.length - 1)⟩

/-- Modelled from the spec: `Selection::single(start, end)`, one range
with anchor `start` and head `end`. -/
def Selection.single (s e : Nat) : Selection := ⟨[⟨s, e⟩], 0⟩

/-- Modelled from the spec: `Selection::point(pos)`, one zero-width
range. -/
def Selection.point (pos : Nat) : Selection := Selection.single pos pos

/-- Modelled from the spec: `transform(f)` applies `f` to every range
independently and re-normalizes (spec section 4.1). -/
def Selection.transform (s : Selection) (f : Range → Range) : Selection :=
  Selection.new (s.ranges.map f) s.primary

/-- Modelled from the spec: `cursor()` is the head of the primary
range. -/
def Selection.cursor (s : Selection) : Nat :=
  (((s.ranges.get? s.primary).map Range.head)).getD 0

theorem sortRanges_sorted_id (l : List Range)
    (h : List.Chain' (fun a b => a.fromPos ≤ b.fromPos) l) : sortRanges l = l := by
  induction l with
  | nil => rfl
  | cons a tl ih =>
    have htl : sortRanges tl = tl := ih (List.Chain'.tail h)
    show insertRange a (sortRanges tl) = a :: tl
    rw [htl]
    cases tl with
    | nil => rfl
    | cons x xs =>
      have hax : a.fromPos ≤ x.fromPos := (List.chain'_cons.mp h).1
      simp [insertRange, if_pos hax]

theorem mergeFold_sorted (l : List Range) : ∀ acc : List Range,
    List.Chain' (fun a b => a.toPos ≤ b.fromPos) l →
    (∀ a, acc.head? = some a → ∀ b, l.head? = some b → a.toPos ≤ b.fromPos) →
    l.foldl mergeInto acc = l.reverse ++ acc := by
  induction l with
  | nil => intro acc _ _; simp
  | cons b bs ih =>
    intro acc hch hacc
    have hstep : mergeInto acc b = b :: acc := by
      cases acc with
      | nil => rfl
      | cons a rest =>
        have hab : a.toPos ≤ b.fromPos := hacc a rfl b rfl
        simp [mergeInto, if_neg (by omega : ¬ b.fromPos < a.toPos)]
    have hrec := ih (b :: acc) (List.Chain'.tail hch) (by
      intro x hx c hc
      cases hx
      exact (List.chain'_cons'.mp hch).1 c hc)
    calc (b :: bs).foldl mergeInto acc = bs.foldl mergeInto (mergeInto acc b) := rfl
      _ = bs.foldl mergeInto (b :: acc) := by rw [hstep]
      _ = bs.reverse ++ (b :: acc) := hrec
      _ = (b :: bs).reverse ++ acc := by simp

theorem mergeRanges_sorted_id (l : List Range)
    (h : List.Chain' (fun a b => a.toPos ≤ b.fromPos) l) : mergeRanges l = l := by
  unfold mergeRanges
  rw [mergeFold_sorted l [] h (by intro a ha; cases ha)]
  simp

/-- When the input ranges are already sorted with non-overlapping spans,
selection normalization is the identity and the primary index is kept. -/
theorem Selection.new_sorted (l : List Range) (primary : Nat)
    (h1 : List.Chain' (fun a b => a.fromPos ≤ b.fromPos) l)
    (h2 : List.Chain' (fun a b => a.toPos ≤ b.fromPos) l) :
    Selection.new l primary = ⟨l, primary⟩ := by
  unfold Selection.new
  rw [sortRanges_sorted_id l h1, mergeRanges_sorted_id l h2]
  simp

/-- Worker for `mapPos`: walks the operations keeping the current old
and new offsets.  Positions sitting exactly on an insertion point are
moved past the inserted text, which is what makes a cursor advance after
an insertion at the cursor. -/
def mapPosGo : List Op → Nat → Nat → Nat → Nat
  | [], pos, old, new => new + (pos - old)
  | Op.retain n :: rest, pos, old, new =>
      if pos < old + n then new + (pos - old) else mapPosGo rest pos (old + n) (new + n)
  | Op.insert s :: rest, pos, old, new => mapPosGo rest pos old (new + s.length)
  | Op.delete n :: rest, pos, old, new =>
      if pos < old + n then new else mapPosGo rest pos (old + n) new

/-- Modelled from the spec: mapping a character position through a
changeset, used to derive the post-edit selection when a transaction
carries none (spec section 3, `Transaction`). -/
def mapPos (ops : List Op) (pos : Nat) : Nat := mapPosGo ops pos 0 0

/-- Modelled from the spec: the old selection mapped through a changeset,
range by range, then re-normalized. -/
def mapSelection (ops : List Op) (s : Selection) : Selection :=
  Selection.new (s.ranges.map fun r => ⟨mapPos ops r.anchor, mapPos ops r.head⟩) s.primary

/-- Modelled from the spec: the editable state, text plus current
selection (missing `helix_core::state::State`). -/
structure State where
  doc : List Char
  selection : Selection
  deriving DecidableEq, Repr

/-- Modelled from the spec: builds one changeset from explicit
`(from, to, replacement)` triples sorted by `from`, filling `Retain`
gaps between consecutive edits; unsorted, overlapping or out-of-bounds
triples are a caller contract violation and fail (spec section 4.2,
`Transaction::change`). -/
def changeOps (len : Nat) : Nat → List (Nat × Nat × Option (List Char)) → Option (List Op)
  | last, [] => if last ≤ len then some [Op.retain (len - last)] else none
  | last, (f, t, repl) :: rest =>
      if last ≤ f ∧ f ≤ t ∧ t ≤ len then
        (changeOps len t rest).map fun ops =>
          Op.retain (f - last) ::
            ((match repl with
              | some s => [Op.insert s]
              | none => []) ++ (Op.delete (t - f) :: ops))
      else none

/-- Modelled from the spec: a transaction, a changeset plus optionally
the selection to install after application (spec section 3). -/
structure Transaction where
  changes : List Op
  selection : Option Selection
  deriving DecidableEq, Repr

/-- Modelled from the spec: `Transaction::change(state, changes)`. -/
def Transaction.change (st : State) (edits : List (Nat × Nat × Option (List Char))) :
    Option Transaction :=
  (changeOps st.doc.length 0 edits).map fun ops => ⟨ops, none⟩

/-- Modelled from the spec: `Transaction::change_by_selection(state, f)`
maps `f` over every range of the current selection in order and forwards
to `change` (spec section 4.2). -/
def Transaction.change_by_selection (st : State)
    (f : Range → Nat × Nat × Option (List Char)) : Option Transaction :=
  Transaction.change st (st.selection.ranges.map f)

/-- Modelled from the spec: `Transaction::insert(state, text)` inserts
`text` at every cursor position of the current selection, in ascending
position order (spec section 4.2). -/
def Transaction.insert (st : State) (text : List Char) : Option Transaction :=
  Transaction.change st (st.selection.ranges.map fun r => (r.head, r.head, some text))

/-- Modelled from the spec: `with_selection` attaches an explicit
post-edit selection. -/
def Transaction.with_selection (tr : Transaction) (s : Selection) : Transaction :=
  { tr with selection := some s }

/-- Modelled from the spec: applying a transaction to a state yields the
new text snapshot and installs the explicit selection, or else the old
selection mapped through the changeset (spec section 4.2, `apply`).
All-or-nothing: a malformed changeset fails without mutating anything. -/
def Transaction.applyTo (tr : Transaction) (st : State) : Option State :=
  (applyOps tr.changes st.doc).map fun newDoc =>
    ⟨newDoc, tr.selection.getD (mapSelection tr.changes st.selection)⟩

/-- Modelled from the spec: a committed revision: the forward transaction
and its stored inverse, which carries the pre-edit selection
(spec section 3, missing `helix_core::History`). -/
structure Revision where
  transaction : Transaction
  inversion : Transaction
  deriving DecidableEq, Repr

/-- Modelled from the spec: the linear undo history: an ordered sequence
of revisions plus a cursor; everything before the cursor is undoable,
everything from the cursor on is redoable (spec section 3). -/
structure History where
  revisions : List Revision
  cursor : Nat
  deriving DecidableEq, Repr

/-- Modelled from the spec: `commit_revision` appends a new revision
built from the transaction and the pre-edit state (the inverse reads the
deleted spans from the pre-edit text and stores the pre-edit selection),
discarding any revisions after the cursor (spec section 4.3). -/
def History.commit_revision (h : History) (tr : Transaction) (original : State) : History :=
  let revert : Transaction := ⟨invertOps tr.changes original.doc, some original.selection⟩
  ⟨h.revisions.take h.cursor ++ [⟨tr, revert⟩], h.cursor + 1⟩

/-- Modelled from the spec: `undo` returns `None` at the start of the
history, otherwise moves the cursor back one and returns the stored
inverse transaction (spec section 4.3). -/
def History.undo (h : History) : Option (History × Transaction) :=
  if h.cursor = 0 then none
  else
    match h.revisions.get? (h.cursor - 1) with
    | none => none
    | some r => some (⟨h.revisions, h.cursor - 1⟩, r.inversion)

/-- Modelled from the spec: `redo` returns `None` at the end of the
history, otherwise returns the next revision forward transaction and
advances the cursor (spec section 4.3). -/
def History.redo (h : History) : Option (History × Transaction) :=
  match h.revisions.get? h.cursor with
  | none => none
  | some r => some (⟨h.revisions, h.cursor + 1⟩, r.transaction)

/-- Modelled from the spec: the editor mode, a closed set of variants;
`Command` is reserved and unimplemented (spec section 3). -/
inductive Mode where
  | Normal
  | Insert
  | Goto
  | Command
  deriving DecidableEq, Repr

/-- Modelled from the spec: the document aggregate owned by the view:
text and selection (`state`), the snapshot taken when the pending edit
session started (`old_state`), the pending uncommitted changeset
(`changes`), the history, the version counter, the mode, and the
`restore_cursor` flag set by append-style insert commands
(missing `helix-view::document::Document`). -/
structure Document where
  state : State
  old_state : State
  changes : List Op
  history : History
  version : Nat
  mode : Mode
  restore_cursor : Bool
  deriving DecidableEq, Repr

/-- The document text, `view.doc.text()`. -/
def Document.text (doc : Document) : List Char := doc.state.doc

/-- The current selection, `view.doc.selection()`. -/
def Document.selection (doc : Document) : Selection := doc.state.selection

/-- Modelled from the spec: `set_selection` installs a selection. -/
def Document.set_selection (doc : Document) (s : Selection) : Document :=
  { doc with state := ⟨doc.state.doc, s⟩ }

/-- Modelled from the spec: `Document::apply` executes the transaction
against the text snapshot, installs the resulting selection, and
accumulates the changeset into the pending changeset by composition
(spec section 4.2, `apply`).  The version counter is not touched here:
in the source it is incremented by `append_changes_to_history` and by
the `undo`/`redo` commands. -/
def Document.apply (doc : Document) (tr : Transaction) : Option Document :=
  (tr.applyTo doc.state).map fun st =>
    { doc with state := st, changes := compose doc.changes tr.changes }

/-- A fresh document over a text and selection: settled state with empty
pending changes and empty history, in Normal mode. -/
def mkDoc (t : List Char) (sel : Selection) : Document :=
  { state := ⟨t, sel⟩, old_state := ⟨t, sel⟩, changes := changeSetNew t,
    history := ⟨[], 0⟩, version := 0, mode := Mode.Normal, restore_cursor := false }

/-- Modelled from the spec: grapheme-cluster boundaries of the external
`helix_core::graphemes` module.  In this embedding every character is a
single grapheme cluster, so the previous boundary is a saturating
decrement; the claims under verification exercise no multi-codepoint
cluster. -/
def prev_grapheme_boundary (_t : List Char) (pos : Nat) : Nat := pos - 1

/-- Modelled from the spec: next grapheme boundary, clamped to the text
end. -/
def next_grapheme_boundary (t : List Char) (pos : Nat) : Nat := min (pos + 1) t.length

/-- Modelled from the spec: `nth_prev_grapheme_boundary`, a saturating
subtraction clamping at the document start (spec section 4.2, edge-case
policy). -/
def nth_prev_grapheme_boundary (_t : List Char) (pos count : Nat) : Nat := pos - count

/-- Modelled from the spec: `nth_next_grapheme_boundary`, clamped to the
text end. -/
def nth_next_grapheme_boundary (t : List Char) (pos count : Nat) : Nat :=
  min (pos + count) t.length

/-- Modelled from the spec: the fixed indent unit width
`helix_core::indent::TAB_WIDTH`. -/
def TAB_WIDTH : Nat := 4

/-- Modelled from the spec: movement direction. -/
inductive Direction where
  | Backward
  | Forward
  deriving DecidableEq, Repr

/-- Modelled from the spec: character-granularity cursor movement of the
movement engine: moves by grapheme boundaries, clamped to the document
bounds by saturating arithmetic (spec section 4.4). -/
def move_pos (t : List Char) (pos : Nat) : Direction → Nat → Nat
  | Direction.Backward, count => nth_prev_grapheme_boundary t pos count
  | Direction.Forward, count => nth_next_grapheme_boundary t pos count

/-- Modelled from the spec: `move_selection` collapses each range before
moving (anchor = head at the destination) (spec section 4.4). -/
def State.move_selection (st : State) (dir : Direction) (count : Nat) : Selection :=
  st.selection.transform fun r =>
    let p := move_pos st.doc r.head dir count
    ⟨p, p⟩

/-! The command layer, translated from `src/helix-view/src/commands.rs`.
Commands take the document (the only part of the `View` they touch,
besides scrolling commands that are out of scope here) and return the
updated document, `Option`-valued when they build a transaction whose
application can fail on a malformed changeset. -/

/-- `move_char_left` (commands.rs line 21). -/
def move_char_left (doc : Document) (count : Nat) : Document :=
  doc.set_selection (doc.state.move_selection Direction.Backward count)

/-- `move_char_right` (commands.rs line 29). -/
def move_char_right (doc : Document) (count : Nat) : Document :=
  doc.set_selection (doc.state.move_selection Direction.Forward count)

/-- `selection_lines` (commands.rs line 320): the line numbers of the
head of each selection range, sorted ascending and deduplicated. -/
def selection_lines (st : State) : List Nat :=
  sortDedup (st.selection.ranges.map fun r => char_to_line st.doc r.head)

/-- `move_line_end` (commands.rs line 53): for each distinct line of a
range head, a zero-width range at the position of the start of the next
line minus 2 (line end before the newline), via saturating subtraction. -/
def move_line_end (doc : Document) (_count : Nat) : Document :=
  let lines := selection_lines doc.state
  let positions := lines.map fun index => line_to_char doc.state.doc (index + 1) - 2
  doc.set_selection (Selection.new (positions.map fun pos => ⟨pos, pos⟩) 0)

/-- `move_line_start` (commands.rs line 72): for each distinct line of a
range head, a zero-width range at the start of that line. -/
def move_line_start (doc : Document) (_count : Nat) : Document :=
  let lines := selection_lines doc.state
  let positions := lines.map fun index => line_to_char doc.state.doc index
  doc.set_selection (Selection.new (positions.map fun pos => ⟨pos, pos⟩) 0)

/-- `append_changes_to_history` (commands.rs line 386): when the pending
changeset is non-empty, reset it to the identity, commit one revision
built from it with the current selection attached, increment the
version, and snapshot the current state into `old_state` (the previous
`old_state` is the pre-edit state used to invert the changes). -/
def append_changes_to_history (doc : Document) : Document :=
  if csIsEmpty doc.changes then doc
  else
    let transaction : Transaction := ⟨doc.changes, some doc.state.selection⟩
    { doc with
      changes := changeSetNew doc.state.doc,
      version := doc.version + 1,
      old_state := doc.state,
      history := doc.history.commit_revision transaction doc.old_state }

/-- `delete_selection` (commands.rs line 248): for every range, delete
the end-inclusive span `(from(), to() + 1)`, then commit. -/
def delete_selection (doc : Document) (_count : Nat) : Option Document :=
  (Transaction.change_by_selection doc.state fun range =>
      (range.fromPos, range.toPos + 1, none)).bind fun transaction =>
    (doc.apply transaction).map append_changes_to_history

/-- `normal_mode` (commands.rs line 409): switch to Normal mode, flush
pending changes into one history commit, and if leaving append mode
(`restore_cursor`), move each range back so its head lands on the
previous grapheme boundary of its `to()`, then clear the flag. -/
def normal_mode (doc : Document) (_count : Nat) : Document :=
  let doc1 := append_changes_to_history { doc with mode := Mode.Normal }
  if doc1.restore_cursor then
    let text := doc1.state.doc
    let selection := doc1.state.selection.transform fun range =>
      ⟨range.fromPos, prev_grapheme_boundary text range.toPos⟩
    { doc1.set_selection selection with restore_cursor := false }
  else doc1

/-- `insert::insert_char` (commands.rs line 437): insert one character
at every cursor via `Transaction::insert`; no commit (transactions made
in insert mode are committed when switching back to normal mode). -/
def insert_char (doc : Document) (c : Char) : Option Document :=
  (Transaction.insert doc.state [c]).bind doc.apply

/-- `insert::delete_char_backward` (commands.rs line 465): for every
range, delete from the nth previous grapheme boundary of the head up to
the head; no commit. -/
def delete_char_backward (doc : Document) (count : Nat) : Option Document :=
  (Transaction.change_by_selection doc.state fun range =>
      (nth_prev_grapheme_boundary doc.state.doc range.head count, range.head, none)).bind
    doc.apply

/-- `undo` (commands.rs line 496): if the history yields a revert
transaction, increment the version and apply it; otherwise do nothing. -/
def undo (doc : Document) (_count : Nat) : Option Document :=
  match doc.history.undo with
  | none => some doc
  | some (h, revert) =>
      Document.apply { doc with history := h, version := doc.version + 1 } revert

/-- `redo` (commands.rs line 505). -/
def redo (doc : Document) (_count : Nat) : Option Document :=
  match doc.history.redo with
  | none => some doc
  | some (h, transaction) =>
      Document.apply { doc with history := h, version := doc.version + 1 } transaction

/-- `undo` iterated. -/
def undoN : Nat → Document → Option Document
  | 0, doc => some doc
  | n + 1, doc => (undo doc 1).bind (undoN n)

/-- `redo` iterated. -/
def redoN : Nat → Document → Option Document
  | 0, doc => some doc
  | n + 1, doc => (redo doc 1).bind (redoN n)

/-- The value pasted for the i-th selection range:
`values.into_iter().chain(iter::repeat(last))` from `paste`
(commands.rs line 533): the values in order, then the last value
repeated forever once the list is exhausted. -/
def pasteValueAt (values : List (List Char)) (lastV : List Char) (i : Nat) : List Char :=
  (values.get? i).getD lastV

/-- Whether a register value makes the paste linewise
(commands.rs line 554): it ends with a newline. -/
def endsNewline (v : List Char) : Bool := v.getLast? == some '\n'

/-- `paste` (commands.rs line 529).  The register store is external
(spec section 6); its lookup result is passed in.  An absent register is
skipped.  If any value ends with a newline the paste is linewise: each
value is inserted at the start of the line following the range head;
otherwise each value is inserted at `head + 1`.  Then commit. -/
def paste (doc : Document) (reg : Option (List (List Char))) : Option Document :=
  match reg with
  | none => some doc
  | some values =>
    match values.getLast? with
    | none => none
    | some lastV =>
      let linewise := values.any endsNewline
      let edits := doc.state.selection.ranges.enum.map fun p =>
        if linewise then
          let line_end := line_to_char doc.state.doc
            (char_to_line doc.state.doc p.2.head + 1)
          (line_end, line_end, some (pasteValueAt values lastV p.1))
        else
          (p.2.head + 1, p.2.head + 1, some (pasteValueAt values lastV p.1))
      (Transaction.change doc.state edits).bind fun transaction =>
        (doc.apply transaction).map append_changes_to_history

/-- `get_lines` (commands.rs line 577): every line number from the
`from()` line through the `to()` line of every range, sorted and
deduplicated. -/
def get_lines (doc : Document) : List Nat :=
  sortDedup (doc.state.selection.ranges.flatMap fun range =>
    List.range' (char_to_line doc.state.doc range.fromPos)
      (char_to_line doc.state.doc range.toPos - char_to_line doc.state.doc range.fromPos + 1))

/-- The leading-indentation width loop of `unindent`
(commands.rs line 619): scan the line, counting a space as one column
and rounding a tab up to the next multiple of `TAB_WIDTH`; stop at the
first other character or as soon as one indent unit is reached. -/
def unindentWidthGo : List Char → Nat → Nat
  | [], w => w
  | ch :: rest, w =>
      if ch = ' ' then
        if TAB_WIDTH ≤ w + 1 then w + 1 else unindentWidthGo rest (w + 1)
      else if ch = '\t' then
        if TAB_WIDTH ≤ (w / TAB_WIDTH + 1) * TAB_WIDTH then (w / TAB_WIDTH + 1) * TAB_WIDTH
        else unindentWidthGo rest ((w / TAB_WIDTH + 1) * TAB_WIDTH)
      else w

/-- `unindent` (commands.rs line 611): for every selected line whose
leading indentation width is positive, delete that many characters from
the line start, then commit. -/
def unindent (doc : Document) (_count : Nat) : Option Document :=
  let lines := get_lines doc
  let changes := lines.filterMap fun line_idx =>
    let width := unindentWidthGo (lineAt doc.state.doc line_idx) 0
    if 0 < width then
      some (line_to_char doc.state.doc line_idx,
        line_to_char doc.state.doc line_idx + width, (none : Option (List Char)))
    else none
  (Transaction.change doc.state changes).bind fun transaction =>
    (doc.apply transaction).map append_changes_to_history

/-- One edit command that applies a transaction and immediately commits
it, the shape shared by `delete_selection`, `paste`, `indent` and
`unindent`. -/
def commitTransaction (doc : Document) (tr : Transaction) : Option Document :=
  (doc.apply tr).map append_changes_to_history

/-- A sequence of committed edits applied left to right. -/
def applyCommitted : Document → List Transaction → Option Document
  | doc, [] => some doc
  | doc, tr :: rest => (commitTransaction doc tr).bind fun d => applyCommitted d rest

/-! Helper lemmas about single-edit transactions. -/

theorem append_changes_state (d : Document) :
    (append_changes_to_history d).state = d.state := by
  unfold append_changes_to_history
  split <;> rfl

/-- A single `(from, to, replacement)` triple in bounds yields a
transaction whose changeset splices the replacement over `[from, to)`. -/
theorem change_single_apply (st : State) (f t : Nat) (repl : Option (List Char))
    (h1 : f ≤ t) (h2 : t ≤ st.doc.length) :
    ∃ tr : Transaction, Transaction.change st [(f, t, repl)] = some tr ∧
      tr.selection = none ∧
      applyOps tr.changes st.doc = some (st.doc.take f ++ repl.getD [] ++ st.doc.drop t) := by
  have hf : f ≤ st.doc.length := le_trans h1 h2
  have hdd : (st.doc.drop f).drop (t - f) = st.doc.drop t := by
    rw [List.drop_drop]
    congr 1
    omega
  have hnil : (st.doc.drop t).drop (st.doc.length - t) = [] := by
    apply List.eq_nil_of_length_eq_zero
    simp only [List.length_drop]
    omega
  have htake : (st.doc.drop t).take (st.doc.length - t) = st.doc.drop t := by
    apply List.take_of_length_le
    simp
  cases repl with
  | none =>
    have hc : changeOps st.doc.length 0 [(f, t, none)] =
        some [Op.retain f, Op.delete (t - f), Op.retain (st.doc.length - t)] := by
      simp only [changeOps]
      rw [if_pos ⟨Nat.zero_le f, h1, h2⟩, if_pos h2]
      simp
    refine ⟨⟨[Op.retain f, Op.delete (t - f), Op.retain (st.doc.length - t)], none⟩, ?_, rfl, ?_⟩
    · simp [Transaction.change, hc]
    · simp only [applyOps]
      rw [if_pos hf, if_pos (by simp; omega : t - f ≤ (st.doc.drop f).length), hdd,
        if_pos (by simp : st.doc.length - t ≤ (st.doc.drop t).length), hnil, htake]
      simp [applyOps]
  | some s =>
    have hc : changeOps st.doc.length 0 [(f, t, some s)] =
        some [Op.retain f, Op.insert s, Op.delete (t - f), Op.retain (st.doc.length - t)] := by
      simp only [changeOps]
      rw [if_pos ⟨Nat.zero_le f, h1, h2⟩, if_pos h2]
      simp
    refine ⟨⟨[Op.retain f, Op.insert s, Op.delete (t - f), Op.retain (st.doc.length - t)],
      none⟩, ?_, rfl, ?_⟩
    · simp [Transaction.change, hc]
    · simp only [applyOps]
      rw [if_pos hf, if_pos (by simp; omega : t - f ≤ (st.doc.drop f).length), hdd,
        if_pos (by simp : st.doc.length - t ≤ (st.doc.drop t).length), hnil, htake]
      simp [applyOps]

/-! Claim C2: multi-cursor character insertion, Scenario B. -/

/-- Scenario B document: text `abc\ndef\n` with two zero-width cursors at
the start of each line. -/
def docC2 : Document := mkDoc ("abc\ndef\n").toList ⟨[⟨0, 0⟩, ⟨4, 4⟩], 0⟩

/-- C2: starting from text `abc\ndef\n` with selection `[(0,0),(4,4)]`,
`insert_char 'x'` produces text `xabc\nxdef\n` and selection
`[(1,1),(6,6)]`. -/
theorem c2_multi_cursor_insert_char :
    (insert_char docC2 'x').map (fun d => (d.state.doc, d.state.selection)) =
      some (("xabc\nxdef\n").toList, ⟨[⟨1, 1⟩, ⟨6, 6⟩], 0⟩) := by decide

/-! Claim C10: delete_selection is end-inclusive. -/

/-- C10: for a selection holding the single range `r`, `delete_selection`
removes exactly the end-inclusive span `[from(), to() + 1)`; in
particular a zero-width cursor deletes the one character under it. -/
theorem c10_delete_end_inclusive (doc : Document) (r : Range)
    (hr : doc.state.selection.ranges = [r])
    (hb : r.toPos + 1 ≤ doc.state.doc.length) :
    ∃ d, delete_selection doc 1 = some d ∧
      d.state.doc = doc.state.doc.take r.fromPos ++ doc.state.doc.drop (r.toPos + 1) := by
  have hfle : r.fromPos ≤ r.toPos + 1 := le_trans r.fromPos_le_toPos (Nat.le_succ _)
  obtain ⟨tr, hch, hsel, happ⟩ :=
    change_single_apply doc.state r.fromPos (r.toPos + 1) none hfle hb
  have hcbs : Transaction.change_by_selection doc.state
      (fun range => (range.fromPos, range.toPos + 1, none)) = some tr := by
    unfold Transaction.change_by_selection
    rw [hr]
    simpa using hch
  have happly : doc.apply tr = some { doc with
      state := ⟨doc.state.doc.take r.fromPos ++ doc.state.doc.drop (r.toPos + 1),
        tr.selection.getD (mapSelection tr.changes doc.state.selection)⟩,
      changes := compose doc.changes tr.changes } := by
    unfold Document.apply Transaction.applyTo
    rw [happ]
    simp
  refine ⟨append_changes_to_history { doc with
      state := ⟨doc.state.doc.take r.fromPos ++ doc.state.doc.drop (r.toPos + 1),
        tr.selection.getD (mapSelection tr.changes doc.state.selection)⟩,
      changes := compose doc.changes tr.changes }, ?_, ?_⟩
  · unfold delete_selection
    rw [hcbs]
    show (doc.apply tr).map append_changes_to_history = _
    rw [happly]
    rfl
  · rw [append_changes_state]

/-- Witness for C10 at a concrete input: a zero-width cursor at offset 1
of `abc` deletes exactly the character under the cursor. -/
theorem c10_delete_end_inclusive_witness :
    ∃ d, delete_selection (mkDoc ("abc").toList (Selection.point 1)) 1 = some d ∧
      d.state.doc = (("abc").toList).take 1 ++ (("abc").toList).drop 2 := by
  have h := c10_delete_end_inclusive (mkDoc ("abc").toList (Selection.point 1)) ⟨1, 1⟩
    (by decide) (by decide)
  simpa using h

/-! Claim C4: linewise paste position. -/

/-- C4: with a single-range selection and a register holding one value
that ends with a newline, `paste` inserts the value at the character
offset of the start of the line following the range head
(`line_to_char (char_to_line head + 1)`), not at the cursor offset. -/
theorem c4_linewise_paste (doc : Document) (r : Range) (v : List Char)
    (hr : doc.state.selection.ranges = [r])
    (hlw : v.getLast? = some '\n') :
    ∃ d, paste doc (some [v]) = some d ∧
      d.state.doc =
        doc.state.doc.take (line_to_char doc.state.doc (char_to_line doc.state.doc r.head + 1))
          ++ v ++
          doc.state.doc.drop
            (line_to_char doc.state.doc (char_to_line doc.state.doc r.head + 1)) := by
  obtain ⟨tr, hch, hsel, happ⟩ := change_single_apply doc.state
    (line_to_char doc.state.doc (char_to_line doc.state.doc r.head + 1))
    (line_to_char doc.state.doc (char_to_line doc.state.doc r.head + 1)) (some v) le_rfl
    (line_to_char_le _ _)
  have hany : [v].any endsNewline = true := by
    simp [endsNewline, hlw]
  have hpaste : paste doc (some [v]) =
      (Transaction.change doc.state
          [(line_to_char doc.state.doc (char_to_line doc.state.doc r.head + 1),
            line_to_char doc.state.doc (char_to_line doc.state.doc r.head + 1),
            some v)]).bind fun transaction =>
        (doc.apply transaction).map append_changes_to_history := by
    unfold paste
    simp [hr, hany, pasteValueAt]
  have happly : doc.apply tr = some { doc with
      state := ⟨doc.state.doc.take
          (line_to_char doc.state.doc (char_to_line doc.state.doc r.head + 1)) ++ v ++
          doc.state.doc.drop
            (line_to_char doc.state.doc (char_to_line doc.state.doc r.head + 1)),
        tr.selection.getD (mapSelection tr.changes doc.state.selection)⟩,
      changes := compose doc.changes tr.changes } := by
    unfold Document.apply Transaction.applyTo
    rw [happ]
    simp
  refine ⟨append_changes_to_history { doc with
      state := ⟨doc.state.doc.take
          (line_to_char doc.state.doc (char_to_line doc.state.doc r.head + 1)) ++ v ++
          doc.state.doc.drop
            (line_to_char doc.state.doc (char_to_line doc.state.doc r.head + 1)),
        tr.selection.getD (mapSelection tr.changes doc.state.selection)⟩,
      changes := compose doc.changes tr.changes }, ?_, ?_⟩
  · rw [hpaste, hch]
    show (doc.apply tr).map append_changes_to_history = _
    rw [happly]
    rfl
  · rw [append_changes_state]

/-- Witness for C4, Scenario D: register `["xy\n"]`, cursor on line 0 of
`abc\ndef\n`; the value is inserted at offset 4, the start of line 1. -/
theorem c4_linewise_paste_witness :
    ∃ d, paste (mkDoc ("abc\ndef\n").toList (Selection.point 0)) (some [("xy\n").toList]) =
        some d ∧
      d.state.doc = (("abc\ndef\n").toList).take 4 ++ ("xy\n").toList ++
        (("abc\ndef\n").toList).drop 4 := by
  have h := c4_linewise_paste (mkDoc ("abc\ndef\n").toList (Selection.point 0)) ⟨0, 0⟩
    (("xy\n").toList) (by decide) (by decide)
  simpa using h

/-! Claim C5: paste value exhaustion uses the last value, not cycling. -/

/-- The three-cursor document for the C5 concrete check: text `xyz`,
cursors after each character target offsets 1, 2 and 3. -/
def docC5 : Document := mkDoc ("xyz").toList ⟨[⟨0, 0⟩, ⟨1, 1⟩, ⟨2, 2⟩], 0⟩

/-- C5: once the register values run out, `paste` keeps using the last
value for every remaining range (`pasteValueAt` falls back to the last
value at and past the list length, and keeps the listed values in
ascending order before that); with register `["a", "b"]` and three
cursors over `xyz` the third range also gets `"b"`, giving `xaybzb`
rather than the `xaybza` cycling would give. -/
theorem c5_paste_last_value_fallback (values : List (List Char)) (lastV : List Char)
    (i j : Nat) (hi : values.length ≤ i) (hj : j < values.length) :
    pasteValueAt values lastV i = lastV ∧
    pasteValueAt values lastV j = values.get ⟨j, hj⟩ ∧
    (paste docC5 (some [("a").toList, ("b").toList])).map (fun d => d.state.doc) =
      some (("xaybzb").toList) := by
  refine ⟨?_, ?_, by decide⟩
  · unfold pasteValueAt
    rw [List.get?_eq_none.mpr hi]
    rfl
  · unfold pasteValueAt
    rw [List.get?_eq_get hj]
    rfl

/-- Witness for C5 at concrete inputs: register `["a", "b"]`, fallback
index 2 yields `"b"`, listed index 1 yields `"b"`. -/
theorem c5_paste_last_value_fallback_witness :
    pasteValueAt [("a").toList, ("b").toList] (("b").toList) 2 = ("b").toList ∧
    pasteValueAt [("a").toList, ("b").toList] (("b").toList) 1 =
      [("a").toList, ("b").toList].get ⟨1, by decide⟩ ∧
    (paste docC5 (some [("a").toList, ("b").toList])).map (fun d => d.state.doc) =
      some (("xaybzb").toList) :=
  c5_paste_last_value_fallback [("a").toList, ("b").toList] (("b").toList) 2 1
    (by decide) (by decide)

/-! Claim C9: absence is not failure. -/

/-- C9: `undo` with no prior revisions, `redo` with no revisions ahead,
and `paste` with an absent register all return the document unchanged:
same text, selection and version, and no error. -/
theorem c9_absence_not_failure (doc : Document) :
    (doc.history.cursor = 0 → undo doc 1 = some doc) ∧
    (doc.history.cursor = doc.history.revisions.length → redo doc 1 = some doc) ∧
    paste doc none = some doc := by
  refine ⟨?_, ?_, rfl⟩
  · intro h
    unfold undo History.undo
    rw [if_pos h]
  · intro h
    unfold redo History.redo
    rw [h, List.get?_eq_none.mpr le_rfl]

/-- Witness for C9 on a concrete empty-history document. -/
theorem c9_absence_not_failure_witness :
    undo (mkDoc ("ab").toList (Selection.point 0)) 1 =
        some (mkDoc ("ab").toList (Selection.point 0)) ∧
    redo (mkDoc ("ab").toList (Selection.point 0)) 1 =
        some (mkDoc ("ab").toList (Selection.point 0)) ∧
    paste (mkDoc ("ab").toList (Selection.point 0)) none =
        some (mkDoc ("ab").toList (Selection.point 0)) := by
  have h := c9_absence_not_failure (mkDoc ("ab").toList (Selection.point 0))
  exact ⟨h.1 rfl, h.2.1 rfl, h.2.2⟩

/-! Claim C6: unindent removes exactly the leading indentation. -/

theorem unindentWidthGo_three_spaces (l : List Char) (c : Char)
    (hc1 : c ≠ ' ') (hc2 : c ≠ '\t') :
    unindentWidthGo (' ' :: ' ' :: ' ' :: c :: l) 0 = 3 := by
  simp [unindentWidthGo, TAB_WIDTH, hc1, hc2]

/-- C6: on a single-cursor selection at offset 0 of a text whose first
line starts with exactly three spaces followed by a non-whitespace
character (indent unit `TAB_WIDTH = 4`), `unindent` deletes exactly the
three leading spaces and nothing else. -/
theorem c6_unindent_three_spaces (doc : Document) (c : Char) (rest : List Char)
    (hdoc : doc.state.doc = ' ' :: ' ' :: ' ' :: c :: rest)
    (hsel : doc.state.selection.ranges = [⟨0, 0⟩])
    (hsp : c ≠ ' ') (htab : c ≠ '\t') (hnl : c ≠ '\n') :
    ∃ d, unindent doc 1 = some d ∧ d.state.doc = c :: rest := by
  have hlines : get_lines doc = [0] := by
    unfold get_lines
    rw [hsel]
    simp [char_to_line, Range.fromPos, Range.toPos, List.range',
      sortDedup, List.insertionSort, List.orderedInsert, dedupC]
  have hltc1 : line_to_char doc.state.doc 1 = line_to_char rest 1 + 4 := by
    rw [hdoc]
    simp only [line_to_char, if_neg (show ¬ (' ' = '\n') by decide), if_neg hnl,
      Nat.zero_add]
    omega
  have hline0 : lineAt doc.state.doc 0 =
      ' ' :: ' ' :: ' ' :: c :: rest.take (line_to_char rest 1) := by
    unfold lineAt
    rw [hltc1]
    have h4 : line_to_char rest 1 + 4 = line_to_char rest 1 + 1 + 1 + 1 + 1 := by omega
    rw [hdoc, h4]
    simp [List.take_succ_cons, List.drop_zero, line_to_char]
  have hwidth : unindentWidthGo (lineAt doc.state.doc 0) 0 = 3 := by
    rw [hline0]
    exact unindentWidthGo_three_spaces _ c hsp htab
  have hchanges : ([0].filterMap fun line_idx =>
      let width := unindentWidthGo (lineAt doc.state.doc line_idx) 0
      if 0 < width then
        some (line_to_char doc.state.doc line_idx,
          line_to_char doc.state.doc line_idx + width, (none : Option (List Char)))
      else none) = [(0, 3, none)] := by
    simp only [List.filterMap]
    rw [hwidth]
    simp [line_to_char]
  have hb3 : (3 : Nat) ≤ doc.state.doc.length := by
    rw [hdoc]
    simp
  obtain ⟨tr, hch, hsel2, happ⟩ :=
    change_single_apply doc.state 0 3 none (by omega) hb3
  have hdrop : doc.state.doc.take 0 ++ (none : Option (List Char)).getD [] ++
      doc.state.doc.drop 3 = c :: rest := by
    rw [hdoc]
    simp
  have happly : doc.apply tr = some { doc with
      state := ⟨c :: rest, tr.selection.getD (mapSelection tr.changes doc.state.selection)⟩,
      changes := compose doc.changes tr.changes } := by
    unfold Document.apply Transaction.applyTo
    rw [happ, hdrop]
    rfl
  refine ⟨append_changes_to_history { doc with
      state := ⟨c :: rest, tr.selection.getD (mapSelection tr.changes doc.state.selection)⟩,
      changes := compose doc.changes tr.changes }, ?_, ?_⟩
  · simp only [unindent, hlines]
    rw [hchanges, hch]
    show (doc.apply tr).map append_changes_to_history = _
    rw [happly]
    rfl
  · rw [append_changes_state]

/-- Witness for C6, Scenario E: `unindent` over `   foo\n` with a cursor
at offset 0 removes exactly the three leading spaces. -/
theorem c6_unindent_three_spaces_witness :
    ∃ d, unindent (mkDoc ("   foo\n").toList (Selection.point 0)) 1 = some d ∧
      d.state.doc = ("foo\n").toList := by
  have h := c6_unindent_three_spaces (mkDoc ("   foo\n").toList (Selection.point 0))
    'f' (("oo\n").toList) (by decide) (by decide) (by decide) (by decide) (by decide)
  simpa using h

/-! Claim C3: boundary conditions.  The movement and backward-deletion
parts hold (saturating arithmetic), but paste is not clamped: with a
cursor at offset `len` (the end of the document, a reachable position)
the non-linewise paste inserts at `head + 1 = len + 1`, out of bounds,
and the transaction fails instead of clamping. -/

theorem Selection.new_singleton (r : Range) (p : Nat) : Selection.new [r] p = ⟨[r], p⟩ :=
  Selection.new_sorted [r] p (List.chain'_singleton _) (List.chain'_singleton _)

/-- Counterexample to C3 as stated: pasting with the cursor at the end
of the document (offset `len` = 2 of `ab`) fails rather than clamping. -/
theorem c3_paste_at_end_counterexample :
    paste (mkDoc ("ab").toList (Selection.point 2)) (some [("x").toList]) = none := by
  decide

/-- C3 amended: movement past the document start and end clamps by
saturating arithmetic and is a no-op at the boundary; backward deletion
with the cursor at offset 0 succeeds and changes nothing; non-linewise
paste succeeds with the cursor on the last character (insertion offset
`head + 1 = len`); but paste with the cursor at offset `len` produces
the out-of-bounds insertion offset `len + 1` and fails. -/
theorem c3_boundary_amended (t : List Char) (c : Nat) (v : List Char)
    (hl : 1 ≤ t.length) (hv : v.getLast? ≠ some '\n') :
    (move_char_left (mkDoc t (Selection.point 0)) c).state = ⟨t, Selection.point 0⟩ ∧
    (move_char_right (mkDoc t (Selection.point t.length)) c).state =
      ⟨t, Selection.point t.length⟩ ∧
    (delete_char_backward (mkDoc t (Selection.point 0)) c).map Document.state =
      some ⟨t, Selection.point 0⟩ ∧
    (paste (mkDoc t (Selection.point (t.length - 1))) (some [v])).isSome = true ∧
    paste (mkDoc t (Selection.point t.length)) (some [v]) = none := by
  have hlwB : endsNewline v = false := by
    simp [endsNewline]
    exact hv
  have hany : [v].any endsNewline = false := by simp [hlwB]
  refine ⟨?_, ?_, ?_, ?_, ?_⟩
  · unfold move_char_left State.move_selection Selection.transform Document.set_selection
    have hmv : move_pos t 0 Direction.Backward c = 0 := by
      simp [move_pos, nth_prev_grapheme_boundary]
    simp [mkDoc, Selection.point, Selection.single, hmv, Selection.new_singleton]
  · unfold move_char_right State.move_selection Selection.transform Document.set_selection
    have hmv : move_pos t t.length Direction.Forward c = t.length := by
      simp [move_pos, nth_next_grapheme_boundary]
    simp [mkDoc, Selection.point, Selection.single, hmv, Selection.new_singleton]
  · have hc : changeOps t.length 0 [(0, 0, (none : Option (List Char)))] =
        some [Op.retain 0, Op.delete 0, Op.retain t.length] := by
      simp [changeOps]
    have happ : applyOps [Op.retain 0, Op.delete 0, Op.retain t.length] t = some t := by
      simp [applyOps, List.drop_length, List.take_length]
    have hmp : mapPos [Op.retain 0, Op.delete 0, Op.retain t.length] 0 = 0 := by
      simp only [mapPos, mapPosGo]
      rw [if_neg (by omega), if_neg (by omega), if_pos (by omega)]
    unfold delete_char_backward Transaction.change_by_selection
    have hedits : (mkDoc t (Selection.point 0)).state.selection.ranges.map
        (fun range =>
          (nth_prev_grapheme_boundary (mkDoc t (Selection.point 0)).state.doc range.head c,
            range.head, (none : Option (List Char)))) = [(0, 0, none)] := by
      simp [mkDoc, Selection.point, Selection.single, nth_prev_grapheme_boundary]
    rw [hedits]
    unfold Transaction.change
    rw [show (mkDoc t (Selection.point 0)).state.doc.length = t.length from rfl, hc]
    show ((mkDoc t (Selection.point 0)).apply
      ⟨[Op.retain 0, Op.delete 0, Op.retain t.length], none⟩).map Document.state = _
    unfold Document.apply Transaction.applyTo
    rw [show (mkDoc t (Selection.point 0)).state.doc = t from rfl, happ]
    simp [mapSelection, mkDoc, Selection.point, Selection.single, hmp,
      Selection.new_singleton]
  · have hplus : t.length - 1 + 1 = t.length := by omega
    obtain ⟨tr, hch, hsel, happ2⟩ := change_single_apply (mkDoc t
      (Selection.point (t.length - 1))).state t.length t.length (some v) le_rfl le_rfl
    have hpaste : paste (mkDoc t (Selection.point (t.length - 1))) (some [v]) =
        (Transaction.change (mkDoc t (Selection.point (t.length - 1))).state
            [(t.length, t.length, some v)]).bind fun transaction =>
          (Option.map append_changes_to_history
            ((mkDoc t (Selection.point (t.length - 1))).apply transaction)) := by
      unfold paste
      simp [mkDoc, Selection.point, Selection.single, hany, pasteValueAt, hplus]
    rw [hpaste, hch]
    show (((mkDoc t (Selection.point (t.length - 1))).apply tr).map
      append_changes_to_history).isSome = true
    unfold Document.apply Transaction.applyTo
    rw [show (mkDoc t (Selection.point (t.length - 1))).state.doc = t from rfl] at happ2 ⊢
    rw [happ2]
    rfl
  · have hcnone : changeOps t.length 0 [(t.length + 1, t.length + 1, some v)] = none := by
      simp only [changeOps]
      rw [if_neg (by omega)]
    have hpaste : paste (mkDoc t (Selection.point t.length)) (some [v]) =
        (Transaction.change (mkDoc t (Selection.point t.length)).state
            [(t.length + 1, t.length + 1, some v)]).bind fun transaction =>
          (Option.map append_changes_to_history
            ((mkDoc t (Selection.point t.length)).apply transaction)) := by
      unfold paste
      simp [mkDoc, Selection.point, Selection.single, hany, pasteValueAt]
    rw [hpaste]
    unfold Transaction.change
    rw [show (mkDoc t (Selection.point t.length)).state.doc.length = t.length from rfl,
      hcnone]
    rfl

/-- Witness for the amended C3 at a concrete input: text `ab`, count 1,
register value `x`. -/
theorem c3_boundary_amended_witness :
    (move_char_left (mkDoc ("ab").toList (Selection.point 0)) 1).state =
      ⟨("ab").toList, Selection.point 0⟩ ∧
    (move_char_right (mkDoc ("ab").toList (Selection.point 2)) 1).state =
      ⟨("ab").toList, Selection.point 2⟩ ∧
    (delete_char_backward (mkDoc ("ab").toList (Selection.point 0)) 1).map Document.state =
      some ⟨("ab").toList, Selection.point 0⟩ ∧
    (paste (mkDoc ("ab").toList (Selection.point 1)) (some [("x").toList])).isSome = true ∧
    paste (mkDoc ("ab").toList (Selection.point 2)) (some [("x").toList]) = none := by
  have h := c3_boundary_amended (("ab").toList) 1 (("x").toList) (by decide) (by decide)
  simpa using h

/-! Claim C8: per-line fan-out of line-start / line-end.  The claim says
one range per distinct line *touched* by the selection; the source's
`selection_lines` only looks at each range's *head* line, so a range
spanning several lines produces a single output range. -/

/-- Follows the claim's words, not the source (refinement target): the
distinct lines touched by the selection, every line from the `from()`
line through the `to()` line of every range, deduplicated and sorted. -/
def linesTouched (st : State) : List Nat :=
  sortDedup (st.selection.ranges.flatMap fun r =>
    List.range' (char_to_line st.doc r.fromPos)
      (char_to_line st.doc r.toPos - char_to_line st.doc r.fromPos + 1))

/-- Follows the claim's words, not the source (refinement target): one
zero-width range at the line start for every distinct touched line. -/
def claimedLineStartRanges (st : State) : List Range :=
  (linesTouched st).map fun l => ⟨line_to_char st.doc l, line_to_char st.doc l⟩

/-- The counterexample document for C8: one range from offset 0 (line 0)
to offset 4 (line 2) over `a\nb\nc\n`, touching lines 0, 1 and 2. -/
def docC8 : Document := mkDoc ("a\nb\nc\n").toList (Selection.single 0 4)

/-- Counterexample to C8 as stated: the single range of `docC8` touches
lines 0, 1 and 2, but `move_line_start` produces a single range at the
head's line start, not one range per touched line. -/
theorem c8_fan_out_counterexample :
    (move_line_start docC8 1).state.selection.ranges = [⟨4, 4⟩] ∧
    claimedLineStartRanges docC8.state = [⟨0, 0⟩, ⟨2, 2⟩, ⟨4, 4⟩] ∧
    ([(⟨4, 4⟩ : Range)] ≠ [⟨0, 0⟩, ⟨2, 2⟩, ⟨4, 4⟩]) := by decide

/-- A selection built from zero-width ranges at monotone positions over
a sorted distinct line list normalizes to itself. -/
theorem new_points_sorted (ls : List Nat) (g : Nat → Nat)
    (hmono : ∀ a b : Nat, a ≤ b → g a ≤ g b) (hls : ls.Pairwise (· < ·)) (p : Nat) :
    Selection.new (ls.map fun l => (⟨g l, g l⟩ : Range)) p =
      ⟨ls.map fun l => (⟨g l, g l⟩ : Range), p⟩ := by
  apply Selection.new_sorted
  · rw [List.chain'_map]
    apply List.Chain'.imp ?_ (List.Pairwise.chain' hls)
    intro a b hab
    simpa [Range.fromPos] using hmono a b (le_of_lt hab)
  · rw [List.chain'_map]
    apply List.Chain'.imp ?_ (List.Pairwise.chain' hls)
    intro a b hab
    simpa [Range.fromPos, Range.toPos] using hmono a b (le_of_lt hab)

/-- C8 amended: `move_line_start` (resp. `move_line_end`) produces one
zero-width range per distinct line containing a range *head* (not per
line touched by the span), deduplicated and sorted ascending, each at
that line's start (resp. at the position two before the next line
start); `selection_lines` holds exactly the head lines, sorted strictly
ascending. -/
theorem c8_fan_out_amended (doc : Document) :
    (move_line_start doc 1).state.selection.ranges =
      (selection_lines doc.state).map
        (fun l => (⟨line_to_char doc.state.doc l, line_to_char doc.state.doc l⟩ : Range)) ∧
    (move_line_end doc 1).state.selection.ranges =
      (selection_lines doc.state).map
        (fun l => (⟨line_to_char doc.state.doc (l + 1) - 2,
          line_to_char doc.state.doc (l + 1) - 2⟩ : Range)) ∧
    (∀ l, l ∈ selection_lines doc.state ↔
      ∃ r ∈ doc.state.selection.ranges, char_to_line doc.state.doc r.head = l) ∧
    (selection_lines doc.state).Pairwise (· < ·) := by
  refine ⟨?_, ?_, ?_, sortDedup_pairwise _⟩
  · have h := new_points_sorted (selection_lines doc.state)
      (fun l => line_to_char doc.state.doc l)
      (fun a b hab => line_to_char_mono _ a b hab) (sortDedup_pairwise _) 0
    simp only [move_line_start, Document.set_selection, List.map_map, Function.comp_def]
    rw [h]
  · have h := new_points_sorted (selection_lines doc.state)
      (fun l => line_to_char doc.state.doc (l + 1) - 2)
      (fun a b hab =>
        Nat.sub_le_sub_right (line_to_char_mono _ (a + 1) (b + 1) (by omega)) 2)
      (sortDedup_pairwise _) 0
    simp only [move_line_end, Document.set_selection, List.map_map, Function.comp_def]
    rw [h]
  · intro l
    unfold selection_lines
    rw [mem_sortDedup]
    simp [List.mem_map]

/-! Claim C7: the Insert to Normal transition. -/

/-- C7: with a non-empty pending changeset, `normal_mode` switches to
Normal mode, flushes the pending changeset into exactly one appended
history revision (the forward transaction carries the current selection,
the stored inverse carries the pre-session state), resets the pending
changeset to the identity, bumps the version, and, because the mode was
entered via an append-style command (`restore_cursor`), moves every
range head back one grapheme boundary and clears the flag.  Forward,
separated ranges (what `append_mode` produces) keep normalization from
reordering anything. -/
theorem c7_normal_mode_flush_restore (doc : Document)
    (hrc : doc.restore_cursor = true)
    (hne : csIsEmpty doc.changes = false)
    (hcur : doc.history.cursor = doc.history.revisions.length)
    (hfwd : ∀ r ∈ doc.state.selection.ranges, r.anchor ≤ r.head)
    (hsep : List.Chain' (fun a b => a.toPos + 1 ≤ b.fromPos) doc.state.selection.ranges) :
    (normal_mode doc 1).mode = Mode.Normal ∧
    (normal_mode doc 1).history.revisions = doc.history.revisions ++
      [⟨⟨doc.changes, some doc.state.selection⟩,
        ⟨invertOps doc.changes doc.old_state.doc, some doc.old_state.selection⟩⟩] ∧
    csIsEmpty (normal_mode doc 1).changes = true ∧
    (normal_mode doc 1).restore_cursor = false ∧
    (normal_mode doc 1).version = doc.version + 1 ∧
    (normal_mode doc 1).state.selection.ranges.map Range.head =
      doc.state.selection.ranges.map (fun r => r.head - 1) := by
  have hcond : ¬ (csIsEmpty doc.changes = true) := by
    rw [hne]
    simp
  have hchain1 : List.Chain' (fun a b => a.fromPos ≤ b.fromPos)
      (doc.state.selection.ranges.map fun r => (⟨r.fromPos, r.toPos - 1⟩ : Range)) := by
    rw [List.chain'_map]
    apply List.Chain'.imp ?_ hsep
    intro a b hab
    simp only [Range.fromPos, Range.toPos] at *
    omega
  have hchain2 : List.Chain' (fun a b => a.toPos ≤ b.fromPos)
      (doc.state.selection.ranges.map fun r => (⟨r.fromPos, r.toPos - 1⟩ : Range)) := by
    rw [List.chain'_map]
    apply List.Chain'.imp ?_ hsep
    intro a b hab
    simp only [Range.fromPos, Range.toPos] at *
    omega
  have hd1 : append_changes_to_history { doc with mode := Mode.Normal } =
      { doc with
        mode := Mode.Normal,
        changes := changeSetNew doc.state.doc,
        version := doc.version + 1,
        old_state := doc.state,
        history := ⟨doc.history.revisions ++
          [⟨⟨doc.changes, some doc.state.selection⟩,
            ⟨invertOps doc.changes doc.old_state.doc, some doc.old_state.selection⟩⟩],
          doc.history.cursor + 1⟩ } := by
    unfold append_changes_to_history History.commit_revision
    rw [if_neg hcond]
    rw [show ({ doc with mode := Mode.Normal } : Document).history = doc.history from rfl,
      hcur, List.take_length]
  have hsel : Selection.transform doc.state.selection
      (fun range => ⟨range.fromPos, prev_grapheme_boundary doc.state.doc range.toPos⟩) =
      ⟨doc.state.selection.ranges.map
          fun r => (⟨r.fromPos, prev_grapheme_boundary doc.state.doc r.toPos⟩ : Range),
        doc.state.selection.primary⟩ :=
    Selection.new_sorted _ _ hchain1 hchain2
  have heq : normal_mode doc 1 =
      { state := ⟨doc.state.doc,
          ⟨doc.state.selection.ranges.map
              fun r => (⟨r.fromPos, prev_grapheme_boundary doc.state.doc r.toPos⟩ : Range),
            doc.state.selection.primary⟩⟩,
        old_state := doc.state,
        changes := changeSetNew doc.state.doc,
        history := ⟨doc.history.revisions ++
          [⟨⟨doc.changes, some doc.state.selection⟩,
            ⟨invertOps doc.changes doc.old_state.doc, some doc.old_state.selection⟩⟩],
          doc.history.cursor + 1⟩,
        version := doc.version + 1,
        mode := Mode.Normal,
        restore_cursor := false } := by
    unfold normal_mode
    rw [hd1]
    dsimp only
    rw [hrc]
    rw [if_pos rfl]
    unfold Document.set_selection
    dsimp only
    rw [hsel]
  rw [heq]
  refine ⟨rfl, rfl, rfl, rfl, rfl, ?_⟩
  rw [List.map_map]
  apply List.map_congr_left
  intro r hr
  have hr2 := hfwd r hr
  simp only [Function.comp_apply, Range.toPos, Range.fromPos, prev_grapheme_boundary]
  omega

/-- The concrete C7 witness document: one typed character pending in
insert mode entered via append, forward range `(0, 1)` over `xab\n`. -/
def docC7 : Document :=
  { mkDoc ("xab\n").toList (Selection.single 0 1) with
    mode := Mode.Insert, restore_cursor := true,
    changes := [Op.insert [('x')], Op.retain 3],
    old_state := ⟨("ab\n").toList, Selection.point 0⟩ }

/-- Witness for C7 at the concrete document `docC7`. -/
theorem c7_normal_mode_flush_restore_witness :
    (normal_mode docC7 1).mode = Mode.Normal ∧
    (normal_mode docC7 1).history.revisions = docC7.history.revisions ++
      [⟨⟨docC7.changes, some docC7.state.selection⟩,
        ⟨invertOps docC7.changes docC7.old_state.doc, some docC7.old_state.selection⟩⟩] ∧
    csIsEmpty (normal_mode docC7 1).changes = true ∧
    (normal_mode docC7 1).restore_cursor = false ∧
    (normal_mode docC7 1).version = docC7.version + 1 ∧
    (normal_mode docC7 1).state.selection.ranges.map Range.head =
      docC7.state.selection.ranges.map (fun r => r.head - 1) :=
  c7_normal_mode_flush_restore docC7 (by decide) (by decide) (by decide)
    (by decide)
    (by rw [show docC7.state.selection.ranges = [⟨0, 1⟩] from rfl]
        exact List.chain'_singleton _)

/-! Claim C1: undo / redo round-trip. -/

/-- A settled document: the pending changeset is the identity over the
current text, the pre-session snapshot is the current state, and the
history cursor sits at the end (no redo tail).  This is the state of a
document in normal mode between committed edits. -/
def Document.settled (doc : Document) : Prop :=
  doc.changes = changeSetNew doc.state.doc ∧ doc.old_state = doc.state ∧
  doc.history.cursor = doc.history.revisions.length

instance (doc : Document) : Decidable doc.settled := by
  unfold Document.settled
  infer_instance

/-- A revision links two states when its forward transaction maps the
first state to the second and its stored inverse maps the second state
back to the first, selections included. -/
def RevLink (s : State) (r : Revision) (s' : State) : Prop :=
  applyOps r.transaction.changes s.doc = some s'.doc ∧
  r.transaction.selection = some s'.selection ∧
  applyOps r.inversion.changes s'.doc = some s.doc ∧
  r.inversion.selection = some s.selection

/-- A chain of revisions linking a sequence of states. -/
def RevChain (s : State) : List Revision → State → Prop
  | [], s' => s = s'
  | r :: rs, s' => ∃ s₁, RevLink s r s₁ ∧ RevChain s₁ rs s'

theorem compose_identity_left (t : List Char) (b : List Op) :
    compose (changeSetNew t) b = b := rfl

/-- One committed edit on a settled document appends exactly one
revision that links the pre-edit state to the post-edit state, and
leaves the document settled again. -/
theorem commitTransaction_step (doc : Document) (tr : Transaction) (d : Document)
    (hs : doc.settled) (hne : csIsEmpty tr.changes = false)
    (h : commitTransaction doc tr = some d) :
    d.settled ∧
    ∃ rev, d.history.revisions = doc.history.revisions ++ [rev] ∧
      RevLink doc.state rev d.state := by
  obtain ⟨hch, hold, hcur⟩ := hs
  cases hnd : applyOps tr.changes doc.state.doc with
  | none =>
    exfalso
    unfold commitTransaction Document.apply Transaction.applyTo at h
    rw [hnd] at h
    simp only [Option.map_none'] at h
    exact Option.noConfusion h
  | some newDoc =>
    have hd : d = append_changes_to_history
        { doc with
          state := ⟨newDoc, tr.selection.getD (mapSelection tr.changes doc.state.selection)⟩,
          changes := compose doc.changes tr.changes } := by
      unfold commitTransaction Document.apply Transaction.applyTo at h
      rw [hnd] at h
      simp only [Option.map_some', Option.some.injEq] at h
      exact h.symm
    have hd2 : d =
        { state := ⟨newDoc, tr.selection.getD (mapSelection tr.changes doc.state.selection)⟩,
          old_state := ⟨newDoc, tr.selection.getD (mapSelection tr.changes doc.state.selection)⟩,
          changes := changeSetNew newDoc,
          history := ⟨doc.history.revisions ++
            [⟨⟨tr.changes,
                some (tr.selection.getD (mapSelection tr.changes doc.state.selection))⟩,
              ⟨invertOps tr.changes doc.state.doc, some doc.state.selection⟩⟩],
            doc.history.revisions.length + 1⟩,
          version := doc.version + 1,
          mode := doc.mode,
          restore_cursor := doc.restore_cursor } := by
      rw [hd, hch, compose_identity_left]
      unfold append_changes_to_history History.commit_revision
      rw [if_neg (by simp [hne])]
      dsimp only
      rw [hold, hcur, List.take_length]
    subst hd2
    refine ⟨⟨rfl, rfl, by simp⟩,
      ⟨⟨⟨tr.changes, some (tr.selection.getD (mapSelection tr.changes doc.state.selection))⟩,
        ⟨invertOps tr.changes doc.state.doc, some doc.state.selection⟩⟩, rfl,
        hnd, rfl, applyOps_invert tr.changes doc.state.doc newDoc hnd, rfl⟩⟩

/-- Applying a list of committed edits to a settled document leaves it
settled and appends one linking revision per edit. -/
theorem applyCommitted_chain : ∀ (txs : List Transaction) (doc d : Document),
    doc.settled → (∀ tr ∈ txs, csIsEmpty tr.changes = false) →
    applyCommitted doc txs = some d →
    d.settled ∧ ∃ rs, d.history.revisions = doc.history.revisions ++ rs ∧
      rs.length = txs.length ∧ RevChain doc.state rs d.state := by
  intro txs
  induction txs with
  | nil =>
    intro doc d hs _ h
    simp only [applyCommitted, Option.some.injEq] at h
    subst h
    exact ⟨hs, [], by simp, rfl, rfl⟩
  | cons tr rest ih =>
    intro doc d hs hne h
    simp only [applyCommitted] at h
    cases hc1 : commitTransaction doc tr with
    | none => rw [hc1] at h; exact Option.noConfusion h
    | some d1 =>
      rw [hc1] at h
      simp only [Option.some_bind] at h
      obtain ⟨hs1, rev, hrev1, hlink⟩ := commitTransaction_step doc tr d1 hs
        (hne tr (List.mem_cons_self tr rest)) hc1
      obtain ⟨hsd, rs', hrev2, hlen2, hchain2⟩ := ih d1 d hs1
        (fun t ht => hne t (List.mem_cons_of_mem tr ht)) h
      refine ⟨hsd, rev :: rs', ?_, by simp [hlen2], d1.state, hlink, hchain2⟩
      rw [hrev2, hrev1, List.append_assoc]
      rfl

theorem revChain_append (rs : List Revision) : ∀ (s s' : State) (r : Revision),
    RevChain s (rs ++ [r]) s' ↔ ∃ s₁, RevChain s rs s₁ ∧ RevLink s₁ r s' := by
  induction rs with
  | nil =>
    intro s s' r
    constructor
    · rintro ⟨s₁, hl, hc⟩
      cases hc
      exact ⟨s, rfl, hl⟩
    · rintro ⟨s₁, hc, hl⟩
      cases hc
      exact ⟨s', hl, rfl⟩
  | cons a rest ih =>
    intro s s' r
    constructor
    · rintro ⟨s₁, hl, hc⟩
      obtain ⟨s₂, hc2, hl2⟩ := (ih s₁ s' r).mp hc
      exact ⟨s₂, ⟨s₁, hl, hc2⟩, hl2⟩
    · rintro ⟨s₂, ⟨s₁, hl, hc⟩, hl2⟩
      exact ⟨s₁, hl, (ih s₁ s' r).mpr ⟨s₂, hc, hl2⟩⟩

/-- Undoing once per chained revision walks the chain backwards through
the stored inverses, restoring the initial state; the history itself is
untouched apart from the cursor. -/
theorem undoN_chain (rs : List Revision) :
    ∀ (doc : Document) (base extra : List Revision) (s₀ : State),
    doc.history.revisions = base ++ rs ++ extra →
    doc.history.cursor = (base ++ rs).length →
    RevChain s₀ rs doc.state →
    ∃ d, undoN rs.length doc = some d ∧ d.state = s₀ ∧
      d.history.revisions = base ++ rs ++ extra ∧ d.history.cursor = base.length := by
  induction rs using List.reverseRecOn with
  | nil =>
    intro doc base extra s₀ hrev hcur hchain
    cases hchain
    exact ⟨doc, rfl, rfl, hrev, by simpa using hcur⟩
  | append_singleton rs' r ih =>
    intro doc base extra s₀ hrev hcur hchain
    obtain ⟨s₁, hchain', hlink⟩ := (revChain_append rs' s₀ doc.state r).mp hchain
    have hcur1 : doc.history.cursor = (base ++ rs').length + 1 := by
      rw [hcur]
      simp only [List.length_append, List.length_singleton]
      omega
    have hget : doc.history.revisions.get? (doc.history.cursor - 1) = some r := by
      rw [hrev, hcur1]
      have : base ++ (rs' ++ [r]) ++ extra = (base ++ rs') ++ ([r] ++ extra) := by
        simp [List.append_assoc]
      rw [this, Nat.add_sub_cancel, List.get?_append_right le_rfl]
      simp
    have hundo : doc.history.undo = some (⟨doc.history.revisions,
        doc.history.cursor - 1⟩, r.inversion) := by
      unfold History.undo
      rw [if_neg (by omega), hget]
    have hlen : (rs' ++ [r]).length = rs'.length + 1 := by simp
    have happly : undo doc 1 = some
        { doc with
          history := ⟨doc.history.revisions, doc.history.cursor - 1⟩,
          version := doc.version + 1,
          state := s₁,
          changes := compose doc.changes r.inversion.changes } := by
      unfold undo
      rw [hundo]
      unfold Document.apply Transaction.applyTo
      dsimp only
      rw [hlink.2.2.1, hlink.2.2.2]
      simp only [Option.map_some', Option.getD_some, Option.some.injEq]
    obtain ⟨d, hd, hdst, hdrev, hdcur⟩ := ih
      { doc with
        history := ⟨doc.history.revisions, doc.history.cursor - 1⟩,
        version := doc.version + 1,
        state := s₁,
        changes := compose doc.changes r.inversion.changes }
      base ([r] ++ extra) s₀
      (by dsimp only; rw [hrev]; simp [List.append_assoc])
      (by dsimp only; omega)
      hchain'
    refine ⟨d, ?_, hdst, ?_, hdcur⟩
    · rw [hlen]
      show (undo doc 1).bind (undoN rs'.length) = some d
      rw [happly, Option.some_bind, hd]
    · rw [hdrev]
      simp [List.append_assoc]

/-- Redoing once per chained revision walks the chain forward through
the stored forward transactions, restoring the final state. -/
theorem redoN_chain (rs : List Revision) :
    ∀ (doc : Document) (base extra : List Revision) (s' : State),
    doc.history.revisions = base ++ rs ++ extra →
    doc.history.cursor = base.length →
    RevChain doc.state rs s' →
    ∃ d, redoN rs.length doc = some d ∧ d.state = s' ∧
      d.history.revisions = base ++ rs ++ extra ∧
      d.history.cursor = (base ++ rs).length := by
  induction rs with
  | nil =>
    intro doc base extra s' hrev hcur hchain
    cases hchain
    exact ⟨doc, rfl, rfl, hrev, by simpa using hcur⟩
  | cons r rest ih =>
    intro doc base extra s' hrev hcur hchain
    obtain ⟨s₁, hlink, hchain'⟩ := hchain
    have hget : doc.history.revisions.get? doc.history.cursor = some r := by
      rw [hrev, hcur]
      have : base ++ (r :: rest) ++ extra = base ++ ((r :: rest) ++ extra) := by
        simp [List.append_assoc]
      rw [this, List.get?_append_right le_rfl]
      simp
    have hredo : doc.history.redo = some (⟨doc.history.revisions,
        doc.history.cursor + 1⟩, r.transaction) := by
      unfold History.redo
      rw [hget]
    have happly : redo doc 1 = some
        { doc with
          history := ⟨doc.history.revisions, doc.history.cursor + 1⟩,
          version := doc.version + 1,
          state := s₁,
          changes := compose doc.changes r.transaction.changes } := by
      unfold redo
      rw [hredo]
      unfold Document.apply Transaction.applyTo
      dsimp only
      rw [hlink.1, hlink.2.1]
      simp only [Option.map_some', Option.getD_some, Option.some.injEq]
    obtain ⟨d, hd, hdst, hdrev, hdcur⟩ := ih
      { doc with
        history := ⟨doc.history.revisions, doc.history.cursor + 1⟩,
        version := doc.version + 1,
        state := s₁,
        changes := compose doc.changes r.transaction.changes }
      (base ++ [r]) extra s'
      (by dsimp only; rw [hrev]; simp [List.append_assoc])
      (by dsimp only; rw [hcur]; simp)
      hchain'
    refine ⟨d, ?_, hdst, ?_, ?_⟩
    · show (redo doc 1).bind (redoN rest.length) = some d
      rw [happly, Option.some_bind, hd]
    · rw [hdrev]
      simp [List.append_assoc]
    · rw [hdcur]
      simp

/-- C1: starting from a settled document, applying N committed edits
(each a transaction whose changeset is non-empty, applied then committed
as one revision, the way `delete_selection`, `paste`, `indent` and
`unindent` do) and then undoing N times restores exactly the original
text and selection; redoing N times after that restores exactly the
post-edit text and selection. -/
theorem c1_undo_redo_round_trip (doc d : Document) (txs : List Transaction)
    (hs : doc.settled) (hne : ∀ tr ∈ txs, csIsEmpty tr.changes = false)
    (h : applyCommitted doc txs = some d) :
    ∃ du dr, undoN txs.length d = some du ∧ du.state = doc.state ∧
      redoN txs.length du = some dr ∧ dr.state = d.state := by
  obtain ⟨hsd, rs, hrevs, hlen, hchain⟩ := applyCommitted_chain txs doc d hs hne h
  obtain ⟨du, hu, hust, hurev, hucur⟩ := undoN_chain rs d doc.history.revisions [] doc.state
    (by rw [hrevs, List.append_nil]) (by rw [hsd.2.2, hrevs]) hchain
  obtain ⟨dr, hr, hrst, _, _⟩ := redoN_chain rs du doc.history.revisions [] d.state
    hurev hucur (by rw [hust]; exact hchain)
  rw [← hlen]
  exact ⟨du, dr, hu, hust, hr, hrst⟩

/-- The Scenario C document: text `abc\ndef\n`, one range `(0, 3)`. -/
def docC1 : Document := mkDoc ("abc\ndef\n").toList (Selection.single 0 3)

/-- The transaction `delete_selection` builds from `docC1`: delete the
end-inclusive span `[0, 4)`. -/
def txC1 : Transaction := ⟨[Op.retain 0, Op.delete 4, Op.retain 4], none⟩

/-- The post-delete document of Scenario C. -/
def docC1' : Document := (delete_selection docC1 1).getD docC1

/-- Witness for C1, Scenario C: committing the delete transaction on
`docC1` is exactly `delete_selection`, and one undo restores the text
`abc\ndef\n` and the selection `(0, 3)`, while one redo restores the
post-delete state. -/
theorem c1_undo_redo_round_trip_witness :
    applyCommitted docC1 [txC1] = some docC1' ∧
    delete_selection docC1 1 = some docC1' ∧
    ∃ du dr, undoN 1 docC1' = some du ∧ du.state = docC1.state ∧
      redoN 1 du = some dr ∧ dr.state = docC1'.state := by
  refine ⟨by decide, by decide, ?_⟩
  have h := c1_undo_redo_round_trip docC1 docC1' [txC1] (by decide)
    (by decide) (by decide)
  simpa using h

end Helix
